import Mathlib

/-!
Verification development for the Bull's Eye analysis worker.

This file gives a shallow embedding, in Lean, of the pieces of the worker
that the specification talks about:

* the per-credential request pacing of `OllamaCloudClient`
  (`worker/llm/ollama_client.py`),
* the JSON extraction / sanitization / parse ladder
  (`parse_llm_json_response` and its helpers),
* the analysis-result normalization and the severity handling of the
  LLM worker loop (`worker/analysis/engine.py`),
* `Database.create_finding` and its fingerprint deduplication
  (`worker/database.py`),
* the scanner invocation loop of `AnalysisEngine._run_all_scanners`,
* the queue/worker scheduler of `AnalysisEngine._run_llm_analysis`
  (poison pills, cancellation drain),
* the progress values written by the pipeline stages.

Machine integers do not overflow in any of the embedded code paths, so
numbers are modelled with `Nat`/`Int`.  Wall-clock instants are modelled
as integers (the code uses `time.time()` floats only through comparisons
and additions, which the integer model preserves faithfully for the
properties below).
-/

/- ### Per-credential pacing (`OllamaCloudClient._wait_for_rate_limit`) -/

/-- Model of `_wait_for_rate_limit` followed by the timestamp write:
`elapsed = now - last`; if `elapsed < min_delay` the caller sleeps
`min_delay - elapsed`, so the request goes out (and the lane timestamp is
written) at `last + delay`; otherwise it goes out at `now`. -/
def sendTime (last now delay : Int) : Int :=
  if now - last < delay then last + delay else now

/-- Model of the module-level `_last_request_times` dict: each credential
key maps to the lane's last request time, defaulting to `0`
(`_last_request_times.get(self._lock_key, 0.0)`).  A run processes a list
of (credential, arrival-time) requests in the order in which the lane
mutexes grant access, and returns the (credential, send-time) events. -/
def paceRun (delay : Int) (lanes : String → Int) :
    List (String × Int) → List (String × Int)
  | [] => []
  | (k, now) :: rest =>
      let t := sendTime (lanes k) now delay
      (k, t) :: paceRun delay (fun k' => if k' = k then t else lanes k') rest

/-- The send times of the events that used credential `k`. -/
def sendsFor (k : String) (events : List (String × Int)) : List Int :=
  events.filterMap (fun e => if e.1 = k then some e.2 else none)

theorem sendTime_ge (last now delay : Int) : last + delay ≤ sendTime last now delay := by
  unfold sendTime
  split
  · exact le_refl _
  · omega

theorem sendsFor_cons_eq (k : String) (t : Int) (l : List (String × Int)) :
    sendsFor k ((k, t) :: l) = t :: sendsFor k l := by
  simp [sendsFor]

theorem sendsFor_cons_ne (k k' : String) (h : k' ≠ k) (t : Int) (l : List (String × Int)) :
    sendsFor k ((k', t) :: l) = sendsFor k l := by
  simp [sendsFor, h]

theorem paceRun_chain (delay : Int) (k : String) :
    ∀ (reqs : List (String × Int)) (lanes : String → Int),
      List.Chain' (fun a b => a + delay ≤ b)
        (lanes k :: sendsFor k (paceRun delay lanes reqs)) := by
  intro reqs
  induction reqs with
  | nil => intro lanes; simp [paceRun, sendsFor]
  | cons e rest ih =>
      intro lanes
      obtain ⟨k', now⟩ := e
      by_cases hk : k' = k
      · subst hk
        rw [paceRun]
        rw [sendsFor_cons_eq]
        refine List.chain'_cons.mpr ⟨sendTime_ge _ _ _, ?_⟩
        have h := ih (fun k'' => if k'' = k' then sendTime (lanes k') now delay else lanes k'')
        simpa using h
      · rw [paceRun]
        rw [sendsFor_cons_ne k k' hk]
        have h := ih (fun k'' => if k'' = k' then sendTime (lanes k') now delay else lanes k'')
        have hkk : ¬ k = k' := fun e => hk e.symm
        rw [if_neg hkk] at h
        exact h

/-- Claim C1: for a single credential, any two consecutive requests sent
through the client are separated by at least the configured minimum
interval (`settings.llm_request_delay`) — the lane mutex plus
`_wait_for_rate_limit` enforce per-lane pacing — while two requests on
two distinct credentials are not separated: the model admits a run in
which requests on lanes "a" and "b" go out at the same instant although
the delay is positive. -/
theorem ollama_lane_pacing :
    (∀ (delay : Int) (lanes : String → Int) (reqs : List (String × Int)) (k : String),
      List.Chain' (fun a b => a + delay ≤ b) (sendsFor k (paceRun delay lanes reqs)))
    ∧ paceRun 5 (fun _ => 0) [("a", 100), ("b", 100)] = [("a", 100), ("b", 100)]
    ∧ (0 : Int) < 5 := by
  refine ⟨?_, by decide, by decide⟩
  intro delay lanes reqs k
  exact (paceRun_chain delay k reqs lanes).tail

/- ### JSON values and a model of Python `json.loads` -/

/-- The backtick character (used by the code-fence regex and the
sanitizer; spelled via its code point). -/
def btick : Char := Char.ofNat 96

/-- Opening curly brace character. -/
def obrace : Char := Char.ofNat 123

/-- Closing curly brace character. -/
def cbrace : Char := Char.ofNat 125

/-- The whitespace class used by Python's `str.strip()` and by `\s` in
the regexes of `ollama_client.py` (ASCII subset). -/
def isPySpace (c : Char) : Bool :=
  c == ' ' || c == '\t' || c == '\n' || c == '\r' || c == Char.ofNat 11 || c == Char.ofNat 12

/-- Whitespace accepted between JSON tokens by `json.loads`. -/
def isJsonWs (c : Char) : Bool :=
  c == ' ' || c == '\t' || c == '\n' || c == '\r'

/-- Python `str.strip()` on a character list. -/
def pyStrip (l : List Char) : List Char :=
  ((l.dropWhile isPySpace).reverse.dropWhile isPySpace).reverse

/-- JSON values as produced by `json.loads`.  Numbers keep their source
literal (their numeric value is never inspected by the embedded code). -/
inductive JVal where
  | null : JVal
  | bool : Bool → JVal
  | num : String → JVal
  | str : String → JVal
  | arr : List JVal → JVal
  | obj : List (String × JVal) → JVal
deriving BEq, Repr

/-- First index at which `pat` occurs as a contiguous sublist. -/
def findSub (pat : List Char) : List Char → Option Nat
  | [] => if pat.isEmpty then some 0 else none
  | c :: rest =>
      if pat.isPrefixOf (c :: rest) then some 0
      else (findSub pat rest).map (· + 1)

/-- First index of a single character (Python `str.find`). -/
def findChar (ch : Char) : List Char → Option Nat
  | [] => none
  | c :: rest => if c == ch then some 0 else (findChar ch rest).map (· + 1)

/-- Last index of a single character (Python `str.rfind`). -/
def rfindChar (ch : Char) (l : List Char) : Option Nat :=
  (findChar ch l.reverse).map (fun j => l.length - 1 - j)

/-- Python dict insertion while `json.loads` builds an object: a repeated
key keeps its first position but takes the latest value. -/
def objInsert (kvs : List (String × JVal)) (k : String) (v : JVal) :
    List (String × JVal) :=
  if kvs.any (fun kv => kv.1 == k) then
    kvs.map (fun kv => if kv.1 == k then (k, v) else kv)
  else kvs ++ [(k, v)]

/-- Hex digit value, if any. -/
def hexVal (c : Char) : Option Nat :=
  if '0' ≤ c ∧ c ≤ '9' then some (c.toNat - '0'.toNat)
  else if 'a' ≤ c ∧ c ≤ 'f' then some (c.toNat - 'a'.toNat + 10)
  else if 'A' ≤ c ∧ c ≤ 'F' then some (c.toNat - 'A'.toNat + 10)
  else none

/-- Parse the body of a JSON string literal (opening quote already
consumed).  Escapes are decoded as `json.loads` does; unescaped control
characters are rejected (`strict=True`).  `\uXXXX` is decoded to the
corresponding code point (surrogate pairing is not modelled; none of the
embedded inputs use it). -/
def parseJStr : Nat → List Char → Option (List Char × List Char)
  | 0, _ => none
  | _ + 1, [] => none
  | fuel + 1, c :: rest =>
      if c == '"' then some ([], rest)
      else if c == '\\' then
        match rest with
        | [] => none
        | e :: rest2 =>
            let dec : Option (Char × List Char) :=
              if e == '"' then some ('"', rest2)
              else if e == '\\' then some ('\\', rest2)
              else if e == '/' then some ('/', rest2)
              else if e == 'b' then some (Char.ofNat 8, rest2)
              else if e == 'f' then some (Char.ofNat 12, rest2)
              else if e == 'n' then some ('\n', rest2)
              else if e == 'r' then some ('\r', rest2)
              else if e == 't' then some ('\t', rest2)
              else if e == 'u' then
                match rest2 with
                | h1 :: h2 :: h3 :: h4 :: rest3 =>
                    match hexVal h1, hexVal h2, hexVal h3, hexVal h4 with
                    | some a, some b, some d, some g =>
                        some (Char.ofNat (((a * 16 + b) * 16 + d) * 16 + g), rest3)
                    | _, _, _, _ => none
                | _ => none
              else none
            match dec with
            | some (ch, rest') =>
                (parseJStr fuel rest').map (fun (s, r) => (ch :: s, r))
            | none => none
      else if c.toNat < 32 then none
      else (parseJStr fuel rest).map (fun (s, r) => (c :: s, r))

/-- Parse a JSON number literal, returning its source text
(`-? (0 | [1-9][0-9]*) (. [0-9]+)? ([eE][+-]?[0-9]+)?`). -/
def parseJNum (l : List Char) : Option (List Char × List Char) :=
  let digits := fun (s : List Char) => s.takeWhile (fun c => '0' ≤ c ∧ c ≤ '9')
  let (sign, l1) := match l with
    | '-' :: t => ([('-' : Char)], t)
    | t => ([], t)
  let intPart := digits l1
  if intPart.isEmpty then none
  else if intPart.length > 1 ∧ intPart.headD ' ' == '0' then none
  else
    let l2 := l1.drop intPart.length
    let (fracPart, l3) :=
      match l2 with
      | '.' :: t =>
          let ds := digits t
          if ds.isEmpty then (([] : List Char), l2)
          else ('.' :: ds, t.drop ds.length)
      | _ => ([], l2)
    let (expPart, l4) :=
      match l3 with
      | e :: t =>
          if e == 'e' || e == 'E' then
            let (esign, t1) := match t with
              | '+' :: t' => ([('+' : Char)], t')
              | '-' :: t' => ([('-' : Char)], t')
              | t' => (([] : List Char), t')
            let ds := digits t1
            if ds.isEmpty then (([] : List Char), l3)
            else (e :: (esign ++ ds), t1.drop ds.length)
          else ([], l3)
      | [] => ([], l3)
    some (sign ++ intPart ++ fracPart ++ expPart, l4)

mutual

/-- Recursive-descent JSON value parser modelling `json.loads` (which
also accepts `NaN`, `Infinity` and `-Infinity`). -/
def parseJVal : Nat → List Char → Option (JVal × List Char)
  | 0, _ => none
  | fuel + 1, l =>
      let l := l.dropWhile isJsonWs
      match l with
      | [] => none
      | c :: rest =>
          if c == '"' then
            (parseJStr (fuel + 1) rest).map (fun (s, r) => (JVal.str (String.mk s), r))
          else if c == obrace then
            match (rest.dropWhile isJsonWs) with
            | d :: rest2 =>
                if d == cbrace then some (JVal.obj [], rest2)
                else parseJMembers fuel (rest.dropWhile isJsonWs) []
            | [] => none
          else if c == '[' then
            match (rest.dropWhile isJsonWs) with
            | d :: rest2 =>
                if d == ']' then some (JVal.arr [], rest2)
                else parseJItems fuel (rest.dropWhile isJsonWs) []
            | [] => none
          else if ['t', 'r', 'u', 'e'].isPrefixOf l then
            some (JVal.bool true, l.drop 4)
          else if ['f', 'a', 'l', 's', 'e'].isPrefixOf l then
            some (JVal.bool false, l.drop 5)
          else if ['n', 'u', 'l', 'l'].isPrefixOf l then
            some (JVal.null, l.drop 4)
          else if ['N', 'a', 'N'].isPrefixOf l then
            some (JVal.num "NaN", l.drop 3)
          else if ['I', 'n', 'f', 'i', 'n', 'i', 't', 'y'].isPrefixOf l then
            some (JVal.num "Infinity", l.drop 8)
          else if ['-', 'I', 'n', 'f', 'i', 'n', 'i', 't', 'y'].isPrefixOf l then
            some (JVal.num "-Infinity", l.drop 9)
          else
            (parseJNum l).map (fun (s, r) => (JVal.num (String.mk s), r))

/-- Members of a JSON object (current position: at a key). -/
def parseJMembers : Nat → List Char → List (String × JVal) →
    Option (JVal × List Char)
  | 0, _, _ => none
  | fuel + 1, l, acc =>
      match l with
      | '"' :: rest =>
          match parseJStr (fuel + 1) rest with
          | none => none
          | some (key, r1) =>
              match r1.dropWhile isJsonWs with
              | ':' :: r2 =>
                  match parseJVal fuel r2 with
                  | none => none
                  | some (v, r3) =>
                      let acc' := objInsert acc (String.mk key) v
                      match r3.dropWhile isJsonWs with
                      | c :: r4 =>
                          if c == ',' then
                            parseJMembers fuel (r4.dropWhile isJsonWs) acc'
                          else if c == cbrace then some (JVal.obj acc', r4)
                          else none
                      | [] => none
              | _ => none
      | _ => none

/-- Items of a JSON array (current position: at a value). -/
def parseJItems : Nat → List Char → List JVal → Option (JVal × List Char)
  | 0, _, _ => none
  | fuel + 1, l, acc =>
      match parseJVal fuel l with
      | none => none
      | some (v, r1) =>
          let acc' := acc ++ [v]
          match r1.dropWhile isJsonWs with
          | c :: r2 =>
              if c == ',' then parseJItems fuel r2 acc'
              else if c == ']' then some (JVal.arr acc', r2)
              else none
          | [] => none

end

/-- Model of `json.loads`: parse one value, allow trailing whitespace
only.  `none` models a raised `json.JSONDecodeError`.  This total model
covers only the value-or-`JSONDecodeError` outcomes; the `RecursionError`
the interpreter raises on nesting beyond its recursion limit is modelled
separately by `jsonLoadsD` below. -/
def jsonLoads (s : String) : Option JVal :=
  let l := s.toList
  match parseJVal (2 * l.length + 8) l with
  | some (v, rest) => if (rest.dropWhile isJsonWs).isEmpty then some v else none
  | none => none

/- ### `_extract_json_payload`, `_sanitize_json_text`, `parse_llm_json_response` -/

/-- The three-backtick delimiter of a fenced code block. -/
def fenceDelim : List Char := [btick, btick, btick]

/-- Case-insensitive test for a leading `json` (the optional group
`(?:json)?` of `_JSON_CODE_FENCE_RE`, compiled with `re.IGNORECASE`). -/
def startsWithJsonCI (l : List Char) : Bool :=
  match l with
  | a :: b :: c :: d :: _ =>
      a.toLower == 'j' && b.toLower == 's' && c.toLower == 'o' && d.toLower == 'n'
  | _ => false

/-- Attempt the fence regex at the current position, which must start
with three backticks: skip the optional `json`, then `\s*` (greedy), then
capture lazily up to the next three backticks (`.*?` with `re.DOTALL`).
Returns the captured group, or `none` when no closing delimiter follows
(no shorter `\s*`/absent-`json` backtrack can succeed, because neither
whitespace nor the letters of `json` contain a backtick). -/
def fenceMatchAt (l : List Char) : Option (List Char) :=
  let afterOpen := l.drop 3
  let afterJson := if startsWithJsonCI afterOpen then afterOpen.drop 4 else afterOpen
  let body := afterJson.dropWhile isPySpace
  (findSub fenceDelim body).map (fun m => body.take m)

/-- `re.search` with `_JSON_CODE_FENCE_RE`: the leftmost position at
which the whole pattern matches, returning the captured group. -/
def fenceSearch : List Char → Option (List Char)
  | [] => none
  | c :: rest =>
      if fenceDelim.isPrefixOf (c :: rest) then
        match fenceMatchAt (c :: rest) with
        | some cap => some cap
        | none => fenceSearch rest
      else fenceSearch rest

/-- `_extract_json_payload` on character lists. -/
def extractJsonPayloadL (text : List Char) : List Char :=
  if text.isEmpty then []
  else
    match fenceSearch text with
    | some cap => pyStrip cap
    | none =>
        let stripped := pyStrip text
        let objStart := findChar obrace stripped
        let objEnd := rfindChar cbrace stripped
        match objStart, objEnd with
        | some s, some e =>
            if s < e then pyStrip ((stripped.drop s).take (e + 1 - s))
            else
              match findChar '[' stripped, rfindChar ']' stripped with
              | some s', some e' =>
                  if s' < e' then pyStrip ((stripped.drop s').take (e' + 1 - s'))
                  else stripped
              | _, _ => stripped
        | _, _ =>
            match findChar '[' stripped, rfindChar ']' stripped with
            | some s', some e' =>
                if s' < e' then pyStrip ((stripped.drop s').take (e' + 1 - s'))
                else stripped
            | _, _ => stripped

/-- `_extract_json_payload`. -/
def extract_json_payload (text : String) : String :=
  String.mk (extractJsonPayloadL text.toList)

/-- Python `str.replace(pat, repl)` (all occurrences, left to right); the
fuel argument, instantiated with the input length, dominates the number
of scanning steps for every non-empty pattern. -/
def replaceSubAux (pat repl : List Char) : Nat → List Char → List Char
  | 0, l => l
  | _ + 1, [] => []
  | fuel + 1, c :: rest =>
      if pat.isPrefixOf (c :: rest) then
        repl ++ replaceSubAux pat repl fuel ((c :: rest).drop pat.length)
      else c :: replaceSubAux pat repl fuel rest

/-- Python `str.replace(pat, repl)` for non-empty `pat`. -/
def replaceSub (pat repl l : List Char) : List Char :=
  replaceSubAux pat repl l.length l

/-- `re.sub(r",\s*([}\]])", r"\1", text)`: each comma followed by
optional whitespace and a closing bracket is replaced by the bracket
alone; scanning resumes after the bracket. -/
def dropTrailingCommasAux : Nat → List Char → List Char
  | 0, l => l
  | _ + 1, [] => []
  | fuel + 1, c :: rest =>
      if c == ',' then
        let ws := rest.takeWhile isPySpace
        let after := rest.drop ws.length
        match after with
        | b :: rest' =>
            if b == cbrace || b == ']' then b :: dropTrailingCommasAux fuel rest'
            else c :: dropTrailingCommasAux fuel rest
        | [] => c :: dropTrailingCommasAux fuel rest
      else c :: dropTrailingCommasAux fuel rest

/-- `_sanitize_json_text` on character lists: remove the BOM, normalize
smart quotes, strip markdown emphasis markers and backticks, drop
trailing commas before closing brackets, and strip. -/
def sanitizeJsonTextL (text : List Char) : List Char :=
  let c1 := replaceSub [Char.ofNat 0xfeff] [] text
  let c2 := replaceSub [Char.ofNat 0x201c] ['"'] c1
  let c3 := replaceSub [Char.ofNat 0x201d] ['"'] c2
  let c4 := replaceSub [Char.ofNat 0x2019] [Char.ofNat 39] c3
  let c5 := replaceSub [Char.ofNat 0x2018] [Char.ofNat 39] c4
  let c6 := replaceSub ['*', '*'] [] c5
  let c7 := replaceSub ['_', '_'] [] c6
  let c8 := replaceSub [btick] [] c7
  pyStrip (dropTrailingCommasAux c8.length c8)

/-- `_sanitize_json_text`. -/
def sanitize_json_text (text : String) : String :=
  String.mk (sanitizeJsonTextL text.toList)

/-- `parse_llm_json_response`: extract the payload, try a direct parse,
then a sanitized parse; only a top-level JSON object is accepted, and
every failure path yields `(none, "")`. -/
def parse_llm_json_response (text : String) : Option JVal × String :=
  let payload := extract_json_payload text
  if payload = "" then (none, "")
  else
    match jsonLoads payload with
    | some (JVal.obj kvs) => (some (JVal.obj kvs), "direct")
    | _ =>
        match jsonLoads (sanitize_json_text payload) with
        | some (JVal.obj kvs) => (some (JVal.obj kvs), "sanitized")
        | _ => (none, "")

/-- Claim C3: the text `{"a":1,}` wrapped in a fenced code block with
trailing prose parses to the object `{"a": 1}` via the sanitized path
(the direct parse fails only on the trailing comma, which the sanitizer
removes), without any repair round-trip. -/
theorem parse_ladder_sanitized_path :
    parse_llm_json_response "```json\n\x7b\"a\":1,\x7d\n```\nThanks for asking."
      = (some (JVal.obj [("a", JVal.num "1")]), "sanitized") := rfl

/- ### `_normalize_analysis_result` and the worker's severity handling -/

/-- Python `dict.get(k)` on a JSON object. -/
def jGet (kvs : List (String × JVal)) (k : String) : Option JVal :=
  (kvs.find? (fun kv => kv.1 == k)).map (fun kv => kv.2)

/-- Python `dict.get(k, d)` on a JSON object. -/
def jGetD (kvs : List (String × JVal)) (k : String) (d : JVal) : JVal :=
  (jGet kvs k).getD d

/-- The `_ensure_list` helper of `_normalize_analysis_result`: the value
if it is a list, `[]` otherwise. -/
def ensureList (v : Option JVal) : List JVal :=
  match v with
  | some (JVal.arr xs) => xs
  | _ => []

/-- Whether a JSON number literal denotes zero (no nonzero mantissa
digit; the exponent cannot change that). -/
def jsonNumIsZero (s : String) : Bool :=
  s.toList.all (fun c =>
    c == '0' || c == '-' || c == '+' || c == '.' || c == 'e' || c == 'E')

/-- Python truthiness (`bool(x)`) of a decoded JSON value. -/
def pyTruthy : JVal → Bool
  | JVal.null => false
  | JVal.bool b => b
  | JVal.num s => !(jsonNumIsZero s)
  | JVal.str s => !(s.isEmpty)
  | JVal.arr xs => !(xs.isEmpty)
  | JVal.obj kvs => !(kvs.isEmpty)

/-- Result shape of `OllamaCloudClient._normalize_analysis_result`. -/
structure NormalizedAnalysis where
  summary : JVal
  purpose : JVal
  complexity : JVal
  is_entrypoint : Bool
  is_test_file : Bool
  security_issues : List JVal
  quality_issues : List JVal
  positive_aspects : List JVal
  dependencies_analysis : JVal
deriving Repr

/-- `OllamaCloudClient._normalize_analysis_result` applied to a parsed
response object. -/
def normalize_analysis_result (data : List (String × JVal)) : NormalizedAnalysis :=
  ⟨jGetD data "summary" (JVal.str ""),
   jGetD data "purpose" (JVal.str ""),
   jGetD data "complexity" (JVal.str "unknown"),
   pyTruthy (jGetD data "is_entrypoint" (JVal.bool false)),
   pyTruthy (jGetD data "is_test_file" (JVal.bool false)),
   ensureList (jGet data "security_issues"),
   ensureList (jGet data "quality_issues"),
   ensureList (jGet data "positive_aspects"),
   jGetD data "dependencies_analysis" (JVal.str "")⟩

/-- `issue.get(k, default)` in the LLM worker loop; `none` models the
`AttributeError` raised when a list entry is not a dict (the worker's
`except` then drops the whole file's findings). -/
def issueGet (issue : JVal) (k : String) (d : JVal) : Option JVal :=
  match issue with
  | JVal.obj kvs => some (jGetD kvs k d)
  | _ => none

/-- The severity passed to `db.create_finding` for a security issue:
`issue.get("severity", "medium")`. -/
def securityIssueSeverity (issue : JVal) : Option JVal :=
  issueGet issue "severity" (JVal.str "medium")

/-- The severity passed to `db.create_finding` for a quality issue:
`issue.get("severity", "low")`. -/
def qualityIssueSeverity (issue : JVal) : Option JVal :=
  issueGet issue "severity" (JVal.str "low")

/-- The fixed severity domain of the spec. -/
def severityDomain : List String := ["critical", "high", "medium", "low", "info"]

/-- Claim C7, counterexample: a model response whose security issue
carries the unrecognized severity `"banana"` passes through
`_normalize_analysis_result` unchanged, and the worker hands exactly
`"banana"` — a value outside the fixed domain — to `db.create_finding`;
no coercion to the fixed domain happens. -/
theorem severity_not_coerced :
    (normalize_analysis_result
        [("security_issues",
          JVal.arr [JVal.obj [("severity", JVal.str "banana"), ("title", JVal.str "X")]])]
      ).security_issues
      = [JVal.obj [("severity", JVal.str "banana"), ("title", JVal.str "X")]]
    ∧ securityIssueSeverity (JVal.obj [("severity", JVal.str "banana"), ("title", JVal.str "X")])
        = some (JVal.str "banana")
    ∧ "banana" ∉ severityDomain := by
  refine ⟨rfl, rfl, by decide⟩

/-- Claim C7, amended: the client does not coerce severities.  A
severity value present in the model response is passed verbatim to the
stored finding (whatever string it is), and only a *missing* severity
key degrades to the defaults `"medium"` (security) and `"low"`
(quality), which do lie in the fixed domain. -/
theorem severity_passthrough_with_defaults :
    (∀ (kvs : List (String × JVal)) (s : String),
      jGet kvs "severity" = some (JVal.str s) →
        securityIssueSeverity (JVal.obj kvs) = some (JVal.str s)
        ∧ qualityIssueSeverity (JVal.obj kvs) = some (JVal.str s))
    ∧ (∀ kvs : List (String × JVal),
      jGet kvs "severity" = none →
        securityIssueSeverity (JVal.obj kvs) = some (JVal.str "medium")
        ∧ qualityIssueSeverity (JVal.obj kvs) = some (JVal.str "low"))
    ∧ "medium" ∈ severityDomain ∧ "low" ∈ severityDomain := by
  refine ⟨?_, ?_, by decide, by decide⟩
  · intro kvs s h
    constructor <;>
      simp [securityIssueSeverity, qualityIssueSeverity, issueGet, jGetD, h]
  · intro kvs h
    constructor <;>
      simp [securityIssueSeverity, qualityIssueSeverity, issueGet, jGetD, h]

/-- Witness for `severity_passthrough_with_defaults` at concrete
inputs. -/
theorem severity_passthrough_witness :
    jGet [("severity", JVal.str "high")] "severity" = some (JVal.str "high")
    ∧ securityIssueSeverity (JVal.obj [("severity", JVal.str "high")])
        = some (JVal.str "high")
    ∧ jGet [("title", JVal.str "T")] "severity" = none
    ∧ securityIssueSeverity (JVal.obj [("title", JVal.str "T")])
        = some (JVal.str "medium") := by
  have h1 : jGet [("severity", JVal.str "high")] "severity" = some (JVal.str "high") := rfl
  have h2 : jGet [("title", JVal.str "T")] "severity" = none := rfl
  exact ⟨h1, (severity_passthrough_with_defaults.1 _ _ h1).1, h2,
         (severity_passthrough_with_defaults.2.1 _ h2).1⟩

/- ### `Database.create_finding` and fingerprint deduplication -/

/-- The stored columns of a finding that the embedded claims need. -/
structure FindingRec where
  fid : String
  job_id : String
  scanner : String
  severity : String
  title : String
  rule_id : Option String
  file_path : Option String
  line_start : Option Int
  fingerprint : String
deriving DecidableEq, Repr

/-- Python `rule_id or title` (an absent or empty `rule_id` is falsy). -/
def ruleOrTitle : Option String → String → String
  | none, t => t
  | some r, t => if r = "" then t else r

/-- How an optional string renders inside an f-string (`None` included). -/
def pyShowOptStr : Option String → String
  | none => "None"
  | some s => s

/-- How an optional integer renders inside an f-string. -/
def pyShowOptInt : Option Int → String
  | none => "None"
  | some n => toString n

/-- `f"{scanner}:{rule_id or title}:{file_path}:{line_start}"`. -/
def mkFingerprint (scanner : String) (rule_id : Option String) (title : String)
    (file_path : Option String) (line_start : Option Int) : String :=
  scanner ++ ":" ++ ruleOrTitle rule_id title ++ ":" ++ pyShowOptStr file_path
    ++ ":" ++ pyShowOptInt line_start

/-- `Database.create_finding`: compute the fingerprint when none is
given (an empty string argument is falsy and is also recomputed), insert
the row, and turn a duplicate-key `sqlite3.IntegrityError` into a `None`
return.  Modelled from the spec: the `findings` table and its uniqueness
constraint are declared in `database/schema.sql`, which is absent from
the sources; per the spec the fingerprint is a uniqueness key within a
job ("duplicate fingerprints within a job are silently dropped"), so the
insert raises exactly when the job already stores the fingerprint. -/
def create_finding (store : List FindingRec)
    (finding_id job_id scanner severity title : String)
    (rule_id file_path : Option String) (line_start : Option Int)
    (fingerprint : Option String) : List FindingRec × Option String :=
  let fp := match fingerprint with
    | some f =>
        if f = "" then mkFingerprint scanner rule_id title file_path line_start else f
    | none => mkFingerprint scanner rule_id title file_path line_start
  if store.any (fun r => r.job_id == job_id && r.fingerprint == fp) then
    (store, none)
  else
    (store ++ [⟨finding_id, job_id, scanner, severity, title, rule_id,
               file_path, line_start, fp⟩], some finding_id)

/-- Claim C2: within one job, two `create_finding` calls with identical
(scanner, rule-or-title, file path, line start) — hence identical
fingerprint — store exactly one finding: when the job does not already
hold the fingerprint, the first call appends the row and returns its id,
and the second call (even with a different severity and id) is a no-op
returning `none`, leaving the store exactly as after the first call. -/
theorem create_finding_idempotent (store : List FindingRec)
    (id1 id2 job scanner sev1 sev2 title : String)
    (rule_id file_path : Option String) (line_start : Option Int)
    (h : store.any (fun r =>
        r.job_id == job
          && r.fingerprint == mkFingerprint scanner rule_id title file_path line_start)
        = false) :
    (create_finding store id1 job scanner sev1 title rule_id file_path line_start none).2
      = some id1
    ∧ (create_finding store id1 job scanner sev1 title rule_id file_path line_start none).1
      = store ++ [⟨id1, job, scanner, sev1, title, rule_id, file_path, line_start,
                   mkFingerprint scanner rule_id title file_path line_start⟩]
    ∧ (create_finding
        (create_finding store id1 job scanner sev1 title rule_id file_path line_start none).1
        id2 job scanner sev2 title rule_id file_path line_start none).2 = none
    ∧ (create_finding
        (create_finding store id1 job scanner sev1 title rule_id file_path line_start none).1
        id2 job scanner sev2 title rule_id file_path line_start none).1
      = (create_finding store id1 job scanner sev1 title rule_id file_path line_start none).1 := by
  have hfirst :
      create_finding store id1 job scanner sev1 title rule_id file_path line_start none
        = (store ++ [⟨id1, job, scanner, sev1, title, rule_id, file_path, line_start,
                      mkFingerprint scanner rule_id title file_path line_start⟩], some id1) := by
    unfold create_finding
    simp [h]
  have hsecond :
      create_finding
        (store ++ [⟨id1, job, scanner, sev1, title, rule_id, file_path, line_start,
                    mkFingerprint scanner rule_id title file_path line_start⟩])
        id2 job scanner sev2 title rule_id file_path line_start none
      = (store ++ [⟨id1, job, scanner, sev1, title, rule_id, file_path, line_start,
                    mkFingerprint scanner rule_id title file_path line_start⟩], none) := by
    unfold create_finding
    simp
  rw [hfirst]
  simp [hsecond]

/-- Witness for `create_finding_idempotent` on an empty store and
concrete column values. -/
theorem create_finding_idempotent_witness :
    ([] : List FindingRec).any (fun r =>
        r.job_id == "job1"
          && r.fingerprint == mkFingerprint "gitleaks" (some "G101") "Secret"
              (some "src/a.py") (some 3)) = false
    ∧ (create_finding [] "f1" "job1" "gitleaks" "high" "Secret"
        (some "G101") (some "src/a.py") (some 3) none).2 = some "f1"
    ∧ (create_finding
        (create_finding [] "f1" "job1" "gitleaks" "high" "Secret"
          (some "G101") (some "src/a.py") (some 3) none).1
        "f2" "job1" "gitleaks" "low" "Secret"
        (some "G101") (some "src/a.py") (some 3) none).2 = none := by
  have h : ([] : List FindingRec).any (fun r =>
      r.job_id == "job1"
        && r.fingerprint == mkFingerprint "gitleaks" (some "G101") "Secret"
            (some "src/a.py") (some 3)) = false := rfl
  have hc := create_finding_idempotent [] "f1" "f2" "job1" "gitleaks" "high" "low"
      "Secret" (some "G101") (some "src/a.py") (some 3) h
  exact ⟨h, hc.1, hc.2.2.1⟩

/- ### `AnalysisEngine._run_all_scanners`: failure isolation -/

/-- One row of `scanner_results` as finalized by
`Database.update_scanner_result`. -/
structure ScannerRunRec where
  scanner : String
  status : String
  findings_count : Nat
  error_message : Option String
deriving DecidableEq, Repr

/-- The universal-scanner loop of `_run_all_scanners`, abstracted over
the scanner invocations' outcomes: `Except.ok` carries the findings an
invocation returned, `Except.error` the `str(e)` of the exception it
raised.  Each iteration finalizes one `ScannerRun` row; findings of
successful scanners are appended to `all_findings`; an exception is
caught at the invocation boundary and never escapes the loop. -/
def runAllScanners (outcomes : List (String × Except String (List String))) :
    List ScannerRunRec × List String :=
  match outcomes with
  | [] => ([], [])
  | (name, res) :: rest =>
      let tail := runAllScanners rest
      match res with
      | Except.ok fs => (⟨name, "completed", fs.length, none⟩ :: tail.1, fs ++ tail.2)
      | Except.error e => (⟨name, "failed", 0, some e⟩ :: tail.1, tail.2)

/-- Claim C9, counterexample: a scanner that raises an exception whose
`str` is empty (`Exception("")`) is recorded as failed, but its stored
error message is the empty string — not the non-empty message the claim
requires. -/
theorem scanner_failure_empty_message :
    (runAllScanners [("badtool", Except.error "")]).1
      = [⟨"badtool", "failed", 0, some ""⟩]
    ∧ ("" : String).length = 0 := by
  exact ⟨rfl, rfl⟩

/-- Claim C9, amended: a scanner invocation that raises is recorded as a
failed `ScannerRun` whose error message equals the exception's text
(hence non-empty exactly when that text is); the exception does not
propagate — every scanner still gets its row — and the stage completes
with precisely the findings of the remaining scanners: removing the
failing invocation from the run leaves the collected findings
unchanged. -/
theorem runAllScanners_rows_length
    (l : List (String × Except String (List String))) :
    (runAllScanners l).1.length = l.length := by
  induction l with
  | nil => rfl
  | cons hd tl ih =>
      obtain ⟨n, res⟩ := hd
      cases res with
      | ok fs => simp [runAllScanners, ih]
      | error e => simp [runAllScanners, ih]

theorem scanner_failure_isolated (pre post : List (String × Except String (List String)))
    (name msg : String) :
    ((runAllScanners (pre ++ (name, Except.error msg) :: post)).1.get? pre.length
        = some ⟨name, "failed", 0, some msg⟩)
    ∧ (runAllScanners (pre ++ (name, Except.error msg) :: post)).1.length
        = pre.length + post.length + 1
    ∧ (runAllScanners (pre ++ (name, Except.error msg) :: post)).2
        = (runAllScanners (pre ++ post)).2 := by
  refine ⟨?_, ?_, ?_⟩
  · induction pre with
    | nil => rfl
    | cons hd tl ih =>
        obtain ⟨n, res⟩ := hd
        cases res with
        | ok fs => simpa [runAllScanners] using ih
        | error e => simpa [runAllScanners] using ih
  · rw [runAllScanners_rows_length]
    simp
    omega
  · induction pre with
    | nil => simp [runAllScanners]
    | cons hd tl ih =>
        obtain ⟨n, res⟩ := hd
        cases res with
        | ok fs =>
            simp only [List.cons_append, runAllScanners, List.append_eq]
            rw [ih]
        | error e =>
            simp only [List.cons_append, runAllScanners, List.append_eq]
            rw [ih]

/-- Witness for `scanner_failure_isolated`: gitleaks succeeds with two
findings, trivy fails, lizard succeeds with one finding. -/
theorem scanner_failure_isolated_witness :
    ((runAllScanners [("gitleaks", Except.ok ["a", "b"]),
        ("trivy", Except.error "exit 2"), ("lizard", Except.ok ["c"])]).1.get? 1
      = some ⟨"trivy", "failed", 0, some "exit 2"⟩)
    ∧ (runAllScanners [("gitleaks", Except.ok ["a", "b"]),
        ("trivy", Except.error "exit 2"), ("lizard", Except.ok ["c"])]).2
      = ["a", "b", "c"] := by
  have h := scanner_failure_isolated [("gitleaks", Except.ok ["a", "b"])]
      [("lizard", Except.ok ["c"])] "trivy" "exit 2"
  exact ⟨h.1, by simpa using h.2.2⟩

/- ### `AnalysisEngine._run_llm_analysis`: queue, workers, cancellation -/

/-- An entry of the shared `asyncio.Queue`: a file task or the `None`
poison pill. -/
inductive QItem (α : Type) where
  | task : α → QItem α
  | pill : QItem α
deriving DecidableEq, Repr

/-- What one worker coroutine is doing. -/
inductive WStatus (α : Type) where
  | waiting : WStatus α
  | processing : α → WStatus α
  | stopped : WStatus α
deriving DecidableEq, Repr

/-- The scheduler state: the shared queue, the workers, the tasks whose
processing has started (in pop order), and the cancellation flag (the
job's stored status reading `cancelled`). -/
structure SchedState (α : Type) where
  queue : List (QItem α)
  workers : List (WStatus α)
  started : List α
  cancelled : Bool
deriving Repr

/-- `max(1, min(len(self.ollama_clients), total_llm_files))`. -/
def workerCount (clients tasks : Nat) : Nat := max 1 (min clients tasks)

/-- `self.ollama_clients[idx % len(self.ollama_clients)]`: the credential
index worker `idx` is bound to. -/
def clientIndex (idx clients : Nat) : Nat := idx % clients

/-- The queue as built before the workers start: every file task in
order, then exactly one poison pill per worker. -/
def initQueue {α : Type} (tasks : List α) (w : Nat) : List (QItem α) :=
  tasks.map QItem.task ++ List.replicate w QItem.pill

/-- The scheduler's initial state. -/
def initState {α : Type} (tasks : List α) (w : Nat) : SchedState α :=
  ⟨initQueue tasks w, List.replicate w WStatus.waiting, [], false⟩

/-- One interleaved step of the worker loop of `_run_llm_analysis`:
a waiting worker pops the queue head — a pill stops it, a task starts
processing unless the cancellation flag is up, in which case it drains
the whole remaining queue (pills included) and stops; a processing
worker may finish its in-flight call and return to popping; the
cancellation flag may be raised at any time. -/
inductive SchedStep {α : Type} : SchedState α → SchedState α → Prop where
  | popTask (s : SchedState α) (i : Nat) (t : α) (q : List (QItem α)) :
      s.workers.get? i = some WStatus.waiting →
      s.queue = QItem.task t :: q →
      s.cancelled = false →
      SchedStep s ⟨q, s.workers.set i (WStatus.processing t), s.started ++ [t], false⟩
  | popPill (s : SchedState α) (i : Nat) (q : List (QItem α)) :
      s.workers.get? i = some WStatus.waiting →
      s.queue = QItem.pill :: q →
      SchedStep s ⟨q, s.workers.set i WStatus.stopped, s.started, s.cancelled⟩
  | finishTask (s : SchedState α) (i : Nat) (t : α) :
      s.workers.get? i = some (WStatus.processing t) →
      SchedStep s ⟨s.queue, s.workers.set i WStatus.waiting, s.started, s.cancelled⟩
  | cancelDrain (s : SchedState α) (i : Nat) (t : α) (q : List (QItem α)) :
      s.workers.get? i = some WStatus.waiting →
      s.queue = QItem.task t :: q →
      s.cancelled = true →
      SchedStep s ⟨[], s.workers.set i WStatus.stopped, s.started, true⟩
  | setCancel (s : SchedState α) :
      s.cancelled = false →
      SchedStep s ⟨s.queue, s.workers, s.started, true⟩

/-- Interleaved executions of the worker pool. -/
def SchedReach {α : Type} : SchedState α → SchedState α → Prop :=
  Relation.ReflTransGen SchedStep

/-- A state in which no coroutine can make progress. -/
def SchedStuck {α : Type} (s : SchedState α) : Prop := ∀ s', ¬ SchedStep s s'

/-- A worker that has not yet popped its pill (it will pop again). -/
def isActive {α : Type} : WStatus α → Bool
  | WStatus.stopped => false
  | _ => true

/-- The number of workers that will still pop from the queue. -/
def nonStopped {α : Type} (ws : List (WStatus α)) : Nat := ws.countP isActive

/-- A worker with an in-flight LLM call. -/
def isInFlight {α : Type} : WStatus α → Bool
  | WStatus.processing _ => true
  | _ => false

/-- Decreasing measure of the scheduler: every step strictly shrinks it,
so every execution of the pool is finite. -/
def schedMeasure {α : Type} (s : SchedState α) : Nat :=
  2 * s.queue.length + s.workers.countP isInFlight + (if s.cancelled then 0 else 1)

theorem countP_set_balance {α : Type} (p : α → Bool) :
    ∀ (l : List α) (i : Nat) (a b : α), l.get? i = some a →
      (l.set i b).countP p + (if p a then 1 else 0)
        = l.countP p + (if p b then 1 else 0) := by
  intro l
  induction l with
  | nil => intro i a b h; simp at h
  | cons hd tl ih =>
      intro i a b h
      cases i with
      | zero =>
          simp only [List.get?] at h
          injection h with h
          subst h
          simp only [List.set, List.countP_cons]
          omega
      | succ j =>
          simp only [List.get?] at h
          simp only [List.set, List.countP_cons]
          have := ih j a b h
          omega

/-- Every scheduler step strictly decreases the measure: the worker pool
cannot run forever. -/
theorem schedStep_measure_lt {α : Type} (s s' : SchedState α)
    (h : SchedStep s s') : schedMeasure s' < schedMeasure s := by
  cases h with
  | popTask i t q hw hq hc =>
      have hcount := countP_set_balance isInFlight s.workers i WStatus.waiting
        (WStatus.processing t) hw
      simp [isInFlight] at hcount
      have hqlen : s.queue.length = q.length + 1 := by rw [hq]; simp
      simp [schedMeasure, hc]
      omega
  | popPill i q hw hq =>
      have hcount := countP_set_balance isInFlight s.workers i WStatus.waiting
        WStatus.stopped hw
      simp [isInFlight] at hcount
      have hqlen : s.queue.length = q.length + 1 := by rw [hq]; simp
      simp [schedMeasure]
      omega
  | finishTask i t hw =>
      have hcount := countP_set_balance isInFlight s.workers i (WStatus.processing t)
        WStatus.waiting hw
      simp [isInFlight] at hcount
      simp [schedMeasure]
      omega
  | cancelDrain i t q hw hq hc =>
      have hcount := countP_set_balance isInFlight s.workers i WStatus.waiting
        WStatus.stopped hw
      simp [isInFlight] at hcount
      have hqlen : s.queue.length = q.length + 1 := by rw [hq]; simp
      simp [schedMeasure, hc]
      omega
  | setCancel hc =>
      simp [schedMeasure, hc]

theorem exists_get?_of_mem {α : Type} {a : α} :
    ∀ {l : List α}, a ∈ l → ∃ i, l.get? i = some a := by
  intro l h
  induction l with
  | nil => cases h
  | cons hd tl ih =>
      cases h with
      | head => exact ⟨0, rfl⟩
      | tail _ h' =>
          obtain ⟨i, hi⟩ := ih h'
          exact ⟨i + 1, hi⟩

theorem all_stopped_of_nonStopped_zero {α : Type} (ws : List (WStatus α))
    (h : nonStopped ws = 0) : ∀ st ∈ ws, st = WStatus.stopped := by
  intro st hst
  have hna := List.countP_eq_zero.mp h st hst
  cases st with
  | waiting => exact absurd rfl hna
  | processing t => exact absurd rfl hna
  | stopped => rfl

/-- The flag is never lowered. -/
theorem schedStep_cancel_mono {α : Type} {s s' : SchedState α}
    (h : SchedStep s s') (hc : s.cancelled = true) : s'.cancelled = true := by
  cases h with
  | popTask i t q hw hq hcf => rw [hcf] at hc; cases hc
  | popPill i q hw hq => exact hc
  | finishTask i t hw => exact hc
  | cancelDrain i t q hw hq hcf => rfl
  | setCancel hcf => rfl

/-- The inductive invariant of a cancellation-free execution: the queue
is the not-yet-popped suffix of the task list followed by exactly one
pill per still-popping worker, the popped prefix is `started`, and once
any pill has been popped no task remains. -/
def SchedInv {α : Type} (tasks : List α) (w : Nat) (s : SchedState α) : Prop :=
  s.workers.length = w ∧
  ∃ rem : List α,
    s.queue = rem.map QItem.task ++ List.replicate (nonStopped s.workers) QItem.pill
    ∧ s.started ++ rem = tasks
    ∧ (nonStopped s.workers < w → rem = [])

theorem schedInv_init {α : Type} (tasks : List α) (w : Nat) :
    SchedInv tasks w (initState tasks w) := by
  refine ⟨by simp [initState], tasks, ?_, by simp [initState], ?_⟩
  · have hns : nonStopped (List.replicate w (WStatus.waiting (α := α))) = w := by
      simp [nonStopped, List.countP_replicate, isActive]
    simp [initState, initQueue, hns]
  · intro hlt
    have hns : nonStopped (List.replicate w (WStatus.waiting (α := α))) = w := by
      simp [nonStopped, List.countP_replicate, isActive]
    rw [initState] at hlt
    simp only [hns] at hlt
    omega

theorem schedInv_step {α : Type} {tasks : List α} {w : Nat} {s s' : SchedState α}
    (h : SchedStep s s') (hc' : s'.cancelled = false)
    (hinv : SchedInv tasks w s) : SchedInv tasks w s' := by
  obtain ⟨hlen, rem, hqeq, hstart, himp⟩ := hinv
  cases h with
  | popTask i t q hw hq hcf =>
      have hns : nonStopped (s.workers.set i (WStatus.processing t)) = nonStopped s.workers := by
        have := countP_set_balance isActive s.workers i WStatus.waiting (WStatus.processing t) hw
        simp [isActive] at this
        simpa [nonStopped] using this
      rw [hq] at hqeq
      match rem, hqeq with
      | [], hqeq =>
          exfalso
          cases hk : nonStopped s.workers with
          | zero => rw [hk] at hqeq; simp at hqeq
          | succ k => rw [hk] at hqeq; simp [List.replicate] at hqeq
      | t' :: rem₂, hqeq =>
          simp only [List.map, List.cons_append] at hqeq
          injection hqeq with hhead htail
          injection hhead with hteq
          refine ⟨by simpa using hlen, rem₂, ?_, ?_, ?_⟩
          · simpa [hns] using htail
          · subst hteq
            simpa [List.append_assoc] using hstart
          · intro hlt
            rw [hns] at hlt
            exact absurd (himp hlt) (by simp)
  | popPill i q hw hq =>
      have hbal := countP_set_balance isActive s.workers i WStatus.waiting WStatus.stopped hw
      simp [isActive] at hbal
      rw [hq] at hqeq
      match rem, hqeq with
      | t' :: rem₂, hqeq =>
          exfalso
          simp [List.map, List.cons_append] at hqeq
      | [], hqeq =>
          simp only [List.map, List.nil_append] at hqeq
          cases hk : nonStopped s.workers with
          | zero => rw [hk] at hqeq; simp at hqeq
          | succ k =>
              rw [hk] at hqeq
              rw [List.replicate_succ] at hqeq
              injection hqeq with _ htail
              have hns : nonStopped (s.workers.set i WStatus.stopped) = k := by
                have : nonStopped (s.workers.set i WStatus.stopped) + 1
                    = nonStopped s.workers := by simpa [nonStopped] using hbal
                omega
              refine ⟨by simpa using hlen, [], ?_, by simpa using hstart, fun _ => rfl⟩
              simpa [hns] using htail
  | finishTask i t hw =>
      have hns : nonStopped (s.workers.set i WStatus.waiting) = nonStopped s.workers := by
        have := countP_set_balance isActive s.workers i (WStatus.processing t) WStatus.waiting hw
        simp [isActive] at this
        simpa [nonStopped] using this
      exact ⟨by simpa using hlen, rem, by simpa [hns] using hqeq, hstart,
        fun hlt => himp (by rwa [hns] at hlt)⟩
  | cancelDrain i t q hw hq hcf => cases hc'
  | setCancel hcf => cases hc'

theorem schedReach_inv {α : Type} (tasks : List α) (w : Nat) (s : SchedState α)
    (h : SchedReach (initState tasks w) s) (hc : s.cancelled = false) :
    SchedInv tasks w s := by
  induction h with
  | refl => exact schedInv_init tasks w
  | tail hab hbc ih =>
      rename_i b c
      have hb : b.cancelled = false := by
        by_contra hb
        have := schedStep_cancel_mono hbc (by simpa using Bool.of_not_eq_false hb)
        rw [this] at hc
        cases hc
      exact schedInv_step hbc hc (ih hb)

/-- In a cancellation-free run, a stuck state has processed every task
(in queue order) and every worker has stopped on its pill. -/
theorem schedStuck_complete {α : Type} (tasks : List α) (w : Nat) (hw : 1 ≤ w)
    (s : SchedState α) (hreach : SchedReach (initState tasks w) s)
    (hc : s.cancelled = false) (hstuck : SchedStuck s) :
    s.started = tasks ∧ ∀ st ∈ s.workers, st = WStatus.stopped := by
  obtain ⟨hlen, rem, hqeq, hstart, himp⟩ := schedReach_inv tasks w s hreach hc
  have hnoflight : ∀ (i : Nat) (t : α), ¬ s.workers.get? i = some (WStatus.processing t) := by
    intro i t hmem
    exact hstuck _ (SchedStep.finishTask s i t hmem)
  have hnowait : s.queue ≠ [] → ∀ i : Nat, ¬ s.workers.get? i = some WStatus.waiting := by
    intro hne i hmem
    match hq : s.queue with
    | [] => exact hne hq
    | QItem.task t :: q => exact hstuck _ (SchedStep.popTask s i t q hmem hq hc)
    | QItem.pill :: q => exact hstuck _ (SchedStep.popPill s i q hmem hq)
  have hqnil : s.queue = [] := by
    by_contra hne
    have hall : ∀ st ∈ s.workers, st = WStatus.stopped := by
      intro st hst
      obtain ⟨i, hi⟩ := exists_get?_of_mem hst
      cases st with
      | waiting => exact absurd hi (hnowait hne i)
      | processing t => exact absurd hi (hnoflight i t)
      | stopped => rfl
    have hzero : nonStopped s.workers = 0 := by
      refine List.countP_eq_zero.mpr ?_
      intro st hst
      rw [hall st hst]
      simp [isActive]
    have hrem : rem = [] := himp (by omega)
    rw [hrem, hzero] at hqeq
    simp at hqeq
    exact hne hqeq
  rw [hqnil] at hqeq
  have hrem : rem = [] := by
    cases rem with
    | nil => rfl
    | cons t r => simp at hqeq
  have hzero : nonStopped s.workers = 0 := by
    rw [hrem] at hqeq
    simp at hqeq
    by_contra hnz
    cases hk : nonStopped s.workers with
    | zero => exact hnz hk
    | succ k => rw [hk] at hqeq; simp [List.replicate] at hqeq
  rw [hrem] at hstart
  exact ⟨by simpa using hstart, all_stopped_of_nonStopped_zero s.workers hzero⟩

/-- Claim C4: for a non-empty eligible task list and `clients ≥ 1`
credentials, exactly `max(1, min(clients, tasks))` workers are spawned;
the shared FIFO queue holds all real tasks first and then exactly one
poison pill per worker; each worker is bound to its own credential
(`idx % clients` is injective because `workers ≤ clients`); every
execution of the pool terminates (the measure strictly decreases), and —
absent cancellation — a finished (stuck) run has started every task
exactly once, in queue order, with all workers joined. -/
theorem llm_scheduler_work_distribution {α : Type} (tasks : List α) (clients : Nat)
    (htasks : tasks ≠ []) (hcl : 1 ≤ clients) :
    workerCount clients tasks.length = max 1 (min clients tasks.length)
    ∧ (initQueue tasks (workerCount clients tasks.length)).take tasks.length
        = tasks.map QItem.task
    ∧ (initQueue tasks (workerCount clients tasks.length)).drop tasks.length
        = List.replicate (workerCount clients tasks.length) QItem.pill
    ∧ workerCount clients tasks.length ≤ clients
    ∧ (∀ i < workerCount clients tasks.length, clientIndex i clients = i)
    ∧ (∀ s s' : SchedState α, SchedStep s s' → schedMeasure s' < schedMeasure s)
    ∧ (∀ s : SchedState α,
        SchedReach (initState tasks (workerCount clients tasks.length)) s →
        s.cancelled = false → SchedStuck s →
        s.started = tasks ∧ ∀ st ∈ s.workers, st = WStatus.stopped) := by
  have hT : 1 ≤ tasks.length := List.length_pos.mpr htasks
  have hle : workerCount clients tasks.length ≤ clients := by
    unfold workerCount
    omega
  have hmaplen : (tasks.map (QItem.task (α := α))).length = tasks.length := by simp
  refine ⟨rfl, ?_, ?_, hle, ?_, fun s s' h => schedStep_measure_lt s s' h, ?_⟩
  · rw [initQueue, ← hmaplen, List.take_left]
  · rw [initQueue, ← hmaplen, List.drop_left]
  · intro i hi
    exact Nat.mod_eq_of_lt (lt_of_lt_of_le hi hle)
  · intro s hreach hc hstuck
    exact schedStuck_complete tasks (workerCount clients tasks.length)
      (le_max_left 1 _) s hreach hc hstuck

/-- Witness for `llm_scheduler_work_distribution`: three file tasks and
two credentials. -/
theorem llm_scheduler_work_distribution_witness :
    (([0, 1, 2] : List Nat) ≠ [] ∧ 1 ≤ 2)
    ∧ (workerCount 2 ([0, 1, 2] : List Nat).length
        = max 1 (min 2 ([0, 1, 2] : List Nat).length)
    ∧ (initQueue ([0, 1, 2] : List Nat) (workerCount 2 ([0, 1, 2] : List Nat).length)).take
          ([0, 1, 2] : List Nat).length = ([0, 1, 2] : List Nat).map QItem.task
    ∧ (initQueue ([0, 1, 2] : List Nat) (workerCount 2 ([0, 1, 2] : List Nat).length)).drop
          ([0, 1, 2] : List Nat).length
        = List.replicate (workerCount 2 ([0, 1, 2] : List Nat).length) QItem.pill
    ∧ workerCount 2 ([0, 1, 2] : List Nat).length ≤ 2
    ∧ (∀ i < workerCount 2 ([0, 1, 2] : List Nat).length, clientIndex i 2 = i)
    ∧ (∀ s s' : SchedState Nat, SchedStep s s' → schedMeasure s' < schedMeasure s)
    ∧ (∀ s : SchedState Nat,
        SchedReach (initState ([0, 1, 2] : List Nat)
          (workerCount 2 ([0, 1, 2] : List Nat).length)) s →
        s.cancelled = false → SchedStuck s →
        s.started = [0, 1, 2] ∧ ∀ st ∈ s.workers, st = WStatus.stopped)) :=
  ⟨⟨by decide, by decide⟩,
   llm_scheduler_work_distribution ([0, 1, 2] : List Nat) 2 (by decide) (by decide)⟩

/- ### Cancellation behaviour -/

/-- `AnalysisEngine._ensure_not_cancelled`: raises `AnalysisCancelled`
(modelled as `Except.error`) when the job's stored status reads
`cancelled`. -/
def ensure_not_cancelled (cancelled : Bool) : Except Unit Unit :=
  if cancelled then Except.error () else Except.ok ()

/-- The scanner loop of `_run_all_scanners` with its per-iteration
`_ensure_not_cancelled` check in front of each invocation; the raised
`AnalysisCancelled` aborts the stage before any further scanner row is
created. -/
def runAllScannersGated (cancelled : Bool)
    (outcomes : List (String × Except String (List String))) :
    Except Unit (List ScannerRunRec × List String) :=
  match outcomes with
  | [] => Except.ok ([], [])
  | (name, res) :: rest =>
      match ensure_not_cancelled cancelled with
      | Except.error e => Except.error e
      | Except.ok _ =>
          match runAllScannersGated cancelled rest with
          | Except.error e => Except.error e
          | Except.ok tail =>
              match res with
              | Except.ok fs =>
                  Except.ok (⟨name, "completed", fs.length, none⟩ :: tail.1, fs ++ tail.2)
              | Except.error e =>
                  Except.ok (⟨name, "failed", 0, some e⟩ :: tail.1, tail.2)

/-- The state the worker pool deadlocks in: the drain emptied the queue
(pills included) while worker 1 was still in flight; worker 1 then waits
forever on `queue.get()`. -/
def deadState : SchedState Nat :=
  ⟨[], [WStatus.stopped, WStatus.waiting], [0, 1], true⟩

/-- Claim C6, evaluation at the failing input: once the flag is set no
scanner invocation and no new file-analysis task starts (the `started`
list is frozen and the gated scanner loop aborts), but the termination
half of the claim fails: with 3 tasks and 2 workers the pool can reach
`deadState` — cancelled, one worker forever waiting on the drained
queue, no step possible — so the engine never records the cancelled
status, rather than reaching it within one in-flight timeout window. -/
theorem cancellation_drain_deadlock :
    (∀ (s s' : SchedState Nat), SchedStep s s' → s.cancelled = true →
        s'.started = s.started ∧ s'.cancelled = true)
    ∧ (∀ outcomes : List (String × Except String (List String)),
        outcomes ≠ [] → runAllScannersGated true outcomes = Except.error ())
    ∧ SchedReach (initState [0, 1, 2] (workerCount 2 3)) deadState
    ∧ SchedStuck deadState
    ∧ deadState.cancelled = true
    ∧ WStatus.waiting ∈ deadState.workers := by
  refine ⟨?_, ?_, ?_, ?_, rfl, by decide⟩
  · intro s s' h hc
    cases h with
    | popTask i t q hw hq hcf => rw [hcf] at hc; cases hc
    | popPill i q hw hq => exact ⟨rfl, hc⟩
    | finishTask i t hw => exact ⟨rfl, hc⟩
    | cancelDrain i t q hw hq hcf => exact ⟨rfl, rfl⟩
    | setCancel hcf => rw [hcf] at hc; cases hc
  · intro outcomes hne
    match outcomes, hne with
    | (name, res) :: rest, _ => rfl
  · have h01 : SchedStep (initState [0, 1, 2] (workerCount 2 3))
        ⟨[QItem.task 1, QItem.task 2, QItem.pill, QItem.pill],
         [WStatus.processing 0, WStatus.waiting], [0], false⟩ :=
      SchedStep.popTask _ 0 0 _ rfl rfl rfl
    have h12 : SchedStep
        (⟨[QItem.task 1, QItem.task 2, QItem.pill, QItem.pill],
          [WStatus.processing 0, WStatus.waiting], [0], false⟩ : SchedState Nat)
        ⟨[QItem.task 2, QItem.pill, QItem.pill],
         [WStatus.processing 0, WStatus.processing 1], [0, 1], false⟩ :=
      SchedStep.popTask _ 1 1 _ rfl rfl rfl
    have h23 : SchedStep
        (⟨[QItem.task 2, QItem.pill, QItem.pill],
          [WStatus.processing 0, WStatus.processing 1], [0, 1], false⟩ : SchedState Nat)
        ⟨[QItem.task 2, QItem.pill, QItem.pill],
         [WStatus.waiting, WStatus.processing 1], [0, 1], false⟩ :=
      SchedStep.finishTask _ 0 0 rfl
    have h34 : SchedStep
        (⟨[QItem.task 2, QItem.pill, QItem.pill],
          [WStatus.waiting, WStatus.processing 1], [0, 1], false⟩ : SchedState Nat)
        ⟨[QItem.task 2, QItem.pill, QItem.pill],
         [WStatus.waiting, WStatus.processing 1], [0, 1], true⟩ :=
      SchedStep.setCancel _ rfl
    have h45 : SchedStep
        (⟨[QItem.task 2, QItem.pill, QItem.pill],
          [WStatus.waiting, WStatus.processing 1], [0, 1], true⟩ : SchedState Nat)
        ⟨[], [WStatus.stopped, WStatus.processing 1], [0, 1], true⟩ :=
      SchedStep.cancelDrain _ 0 2 [QItem.pill, QItem.pill] rfl rfl rfl
    have h56 : SchedStep
        (⟨[], [WStatus.stopped, WStatus.processing 1], [0, 1], true⟩ : SchedState Nat)
        deadState :=
      SchedStep.finishTask _ 1 1 rfl
    exact Relation.ReflTransGen.head h01 (Relation.ReflTransGen.head h12
      (Relation.ReflTransGen.head h23 (Relation.ReflTransGen.head h34
        (Relation.ReflTransGen.head h45 (Relation.ReflTransGen.head h56
          Relation.ReflTransGen.refl)))))
  · intro s' h
    cases h with
    | popTask i t q hw hq hcf => simp [deadState] at hq
    | popPill i q hw hq => simp [deadState] at hq
    | cancelDrain i t q hw hq hcf => simp [deadState] at hq
    | setCancel hcf => simp [deadState] at hcf
    | finishTask i t hw =>
        match i, hw with
        | 0, hw => simp [deadState, List.get?] at hw
        | 1, hw => simp [deadState, List.get?] at hw
        | (n + 2), hw => simp [deadState, List.get?] at hw

/-- Witness for `cancellation_drain_deadlock`: its frozen-`started`
conjunct applied to the concrete drain step out of the cancelled state
`⟨[task 2, pill, pill], [waiting, processing 1], [0, 1], true⟩`. -/
theorem cancellation_drain_deadlock_witness :
    (⟨[QItem.task 2, QItem.pill, QItem.pill],
      [WStatus.waiting, WStatus.processing 1], [0, 1], true⟩ : SchedState Nat).cancelled = true
    ∧ (⟨[], [WStatus.stopped, WStatus.processing 1], [0, 1], true⟩ : SchedState Nat).started
        = (⟨[QItem.task 2, QItem.pill, QItem.pill],
            [WStatus.waiting, WStatus.processing 1], [0, 1], true⟩ : SchedState Nat).started
    ∧ runAllScannersGated true [("gitleaks", Except.ok ["a"])] = Except.error () := by
  refine ⟨rfl, ?_, ?_⟩
  · exact (cancellation_drain_deadlock.1
      (⟨[QItem.task 2, QItem.pill, QItem.pill],
        [WStatus.waiting, WStatus.processing 1], [0, 1], true⟩ : SchedState Nat)
      (⟨[], [WStatus.stopped, WStatus.processing 1], [0, 1], true⟩ : SchedState Nat)
      (SchedStep.cancelDrain
        (⟨[QItem.task 2, QItem.pill, QItem.pill],
          [WStatus.waiting, WStatus.processing 1], [0, 1], true⟩ : SchedState Nat)
        0 2 [QItem.pill, QItem.pill] rfl rfl rfl) rfl).1
  · exact cancellation_drain_deadlock.2.1 [("gitleaks", Except.ok ["a"])]
      (List.cons_ne_nil _ _)

/- ### Progress values written by the pipeline -/

/-- `progress = 15 + int((i / scanner_count) * 15)` for the `i`-th
universal scanner (the float expression is modelled by the exact
rational floor; both are monotone in `i` and stay below 30). -/
def scanUniversalProgress (u i : Nat) : Nat := 15 + (15 * i) / u

/-- `progress = 30 + int((comp_idx / len(components)) * 15)` for the
language-specific scanners of component `comp_idx`. -/
def scanComponentProgress (c ci : Nat) : Nat := 30 + (15 * ci) / c

/-- `progress = 50 + int((processed_files / total_llm_files) * 35)`
after `p` files have been processed. -/
def analyzingProgress (total p : Nat) : Nat := 50 + (35 * p) / total

/-- The analyzing-stage updates actually emitted by the worker loop: the
shared `processed_files` counter walks through `ps`, and a status update
is pushed only when the new progress strictly exceeds the
`last_progress` high-water mark (both read and written under
`progress_lock`). -/
def emitUpdates (total hwm : Nat) : List Nat → List Nat
  | [] => []
  | p :: ps =>
      if hwm < analyzingProgress total p then
        analyzingProgress total p :: emitUpdates total (analyzingProgress total p) ps
      else emitUpdates total hwm ps

/-- The emitted analyzing-stage updates of a full run over `total`
files: `processed_files` goes `1, 2, …, total` and the high-water mark
starts at the stage's opening value 50. -/
def analyzingEmitted (total : Nat) : List Nat :=
  emitUpdates total 50 ((List.range total).map (· + 1))

/-- Every explicit `progress` value `StatusTracker.update` persists
during a successful run, in order: the cloning, component-detection and
scanning stage updates, the per-scanner values of the universal band,
the per-component values of the language band (component `ci` carries
`compScanners ci` invocations), the scanning/analyzing stage updates,
the emitted analyzing updates when any file is analyzed, and the
report/completion updates. -/
def pipelineWrites (u c : Nat) (compScanners : Nat → Nat) (total : Nat) : List Nat :=
  [0, 5, 8, 10, 15]
  ++ (List.range u).map (scanUniversalProgress u)
  ++ (List.range c).flatMap
      (fun ci => List.replicate (compScanners ci) (scanComponentProgress c ci))
  ++ [45, 50]
  ++ (if total = 0 then [] else 50 :: analyzingEmitted total)
  ++ [90, 100]

theorem analyzingProgress_le_84 {total p : Nat} (h : p < total) :
    analyzingProgress total p ≤ 84 := by
  have htot : 0 < total := Nat.lt_of_le_of_lt (Nat.zero_le p) h
  have : (35 * p) / total < 35 := by
    rw [Nat.div_lt_iff_lt_mul htot]
    omega
  unfold analyzingProgress
  omega

theorem analyzingProgress_self {total : Nat} (h : 1 ≤ total) :
    analyzingProgress total total = 85 := by
  unfold analyzingProgress
  rw [Nat.mul_div_cancel 35 (by omega)]

theorem analyzingProgress_le_85 {total p : Nat} (hp : p ≤ total) (h : 1 ≤ total) :
    analyzingProgress total p ≤ 85 := by
  rcases Nat.lt_or_ge p total with hlt | hge
  · exact le_trans (analyzingProgress_le_84 hlt) (by omega)
  · have : p = total := le_antisymm hp hge
    rw [this, analyzingProgress_self h]

theorem emitUpdates_chain (total : Nat) (ps : List Nat) :
    ∀ hwm : Nat, List.Chain' (· < ·) (hwm :: emitUpdates total hwm ps) := by
  induction ps with
  | nil => intro hwm; simp [emitUpdates]
  | cons p ps ih =>
      intro hwm
      rw [emitUpdates]
      by_cases h : hwm < analyzingProgress total p
      · rw [if_pos h]
        exact List.chain'_cons.mpr ⟨h, ih _⟩
      · rw [if_neg h]
        exact ih hwm

theorem emitUpdates_mem (total : Nat) (ps : List Nat) :
    ∀ (hwm x : Nat), x ∈ emitUpdates total hwm ps →
      ∃ p ∈ ps, x = analyzingProgress total p := by
  induction ps with
  | nil => intro hwm x hx; simp [emitUpdates] at hx
  | cons p ps ih =>
      intro hwm x hx
      rw [emitUpdates] at hx
      by_cases h : hwm < analyzingProgress total p
      · rw [if_pos h] at hx
        rcases List.mem_cons.mp hx with hx | hx
        · exact ⟨p, by simp, by simpa using hx⟩
        · obtain ⟨p', hp', hxp⟩ := ih _ x hx
          exact ⟨p', by simp [hp'], hxp⟩
      · rw [if_neg h] at hx
        obtain ⟨p', hp', hxp⟩ := ih _ x hx
        exact ⟨p', by simp [hp'], hxp⟩

theorem getLast?_cons_of_getLast? {l : List Nat} {a x : Nat}
    (h : l.getLast? = some x) : (a :: l).getLast? = some x := by
  cases l with
  | nil => simp at h
  | cons b l => rw [List.getLast?_cons_cons]; exact h

theorem emitUpdates_getLast (total : Nat) (htot : 1 ≤ total) (ps : List Nat) :
    ∀ hwm : Nat, hwm < 85 → (∀ p ∈ ps, p < total) →
      (emitUpdates total hwm (ps ++ [total])).getLast? = some 85 := by
  induction ps with
  | nil =>
      intro hwm hh _
      rw [List.nil_append, emitUpdates, analyzingProgress_self htot, if_pos hh]
      rfl
  | cons p ps ih =>
      intro hwm hh hbound
      have hp : p < total := hbound p (by simp)
      have hle : analyzingProgress total p ≤ 84 := analyzingProgress_le_84 hp
      rw [List.cons_append, emitUpdates]
      by_cases h : hwm < analyzingProgress total p
      · rw [if_pos h]
        exact getLast?_cons_of_getLast?
          (ih _ (by omega) (fun q hq => hbound q (by simp [hq])))
      · rw [if_neg h]
        exact ih hwm hh (fun q hq => hbound q (by simp [hq]))

/-- The analyzing band's emitted updates are strictly increasing and lie
in `(50, 85]`; the last one is exactly 85 for any nonzero file count. -/
theorem analyzingEmitted_facts (total : Nat) (htot : 1 ≤ total) :
    List.Chain' (· < ·) (analyzingEmitted total)
    ∧ (∀ x ∈ analyzingEmitted total, 50 < x ∧ x ≤ 85)
    ∧ (analyzingEmitted total).getLast? = some 85 := by
  have hchain := emitUpdates_chain total ((List.range total).map (· + 1)) 50
  refine ⟨hchain.tail, ?_, ?_⟩
  · intro x hx
    constructor
    · have hpair := (List.chain'_iff_pairwise.mp hchain)
      exact (List.pairwise_cons.mp hpair).1 x hx
    · obtain ⟨p, hp, hxp⟩ := emitUpdates_mem total _ 50 x hx
      obtain ⟨q, hq, hqp⟩ := List.mem_map.mp hp
      have : p ≤ total := by
        have := List.mem_range.mp hq
        omega
      rw [hxp]
      exact analyzingProgress_le_85 this htot
  · have hsplit : (List.range total).map (· + 1)
        = (List.range (total - 1)).map (· + 1) ++ [total] := by
      cases total with
      | zero => omega
      | succ n =>
          rw [List.range_succ, List.map_append]
          simp
    rw [analyzingEmitted, hsplit]
    refine emitUpdates_getLast total htot _ 50 (by omega) ?_
    intro p hp
    obtain ⟨q, hq, hqp⟩ := List.mem_map.mp hp
    have := List.mem_range.mp hq
    omega

theorem scanUniversalProgress_bounds {u i : Nat} (h : i < u) :
    15 ≤ scanUniversalProgress u i ∧ scanUniversalProgress u i ≤ 29 := by
  have hu : 0 < u := Nat.lt_of_le_of_lt (Nat.zero_le i) h
  have hdiv : (15 * i) / u < 15 := by
    rw [Nat.div_lt_iff_lt_mul hu]
    omega
  unfold scanUniversalProgress
  generalize (15 * i) / u = d at hdiv ⊢
  omega

theorem scanComponentProgress_bounds {c ci : Nat} (h : ci < c) :
    30 ≤ scanComponentProgress c ci ∧ scanComponentProgress c ci ≤ 44 := by
  have hc : 0 < c := Nat.lt_of_le_of_lt (Nat.zero_le ci) h
  have hdiv : (15 * ci) / c < 15 := by
    rw [Nat.div_lt_iff_lt_mul hc]
    omega
  unfold scanComponentProgress
  generalize (15 * ci) / c = d at hdiv ⊢
  omega

theorem scanUniversalProgress_mono {u i j : Nat} (h : i ≤ j) :
    scanUniversalProgress u i ≤ scanUniversalProgress u j := by
  unfold scanUniversalProgress
  have := Nat.div_le_div_right (c := u) (Nat.mul_le_mul_left 15 h)
  omega

theorem scanComponentProgress_mono {c i j : Nat} (h : i ≤ j) :
    scanComponentProgress c i ≤ scanComponentProgress c j := by
  unfold scanComponentProgress
  have := Nat.div_le_div_right (c := c) (Nat.mul_le_mul_left 15 h)
  omega

/-- Claim C5: over a full successful run the persisted progress value
never decreases — every stage writes at or above the last value of the
previous stage, the universal and component scanner bands are monotone
and stay below the next stage's floor, and the analyzing-stage updates
(emitted only when the new progress strictly exceeds the high-water
mark held under the lock) are strictly increasing. -/
theorem pipeline_progress_monotone (u c : Nat) (compScanners : Nat → Nat) (total : Nat) :
    List.Chain' (· ≤ ·) (pipelineWrites u c compScanners total)
    ∧ List.Chain' (· < ·) (analyzingEmitted total) := by
  constructor
  · refine List.Pairwise.chain' ?_
    have hA : ∀ x ∈ ([0, 5, 8, 10, 15] : List Nat), x ≤ 15 := by decide
    have hD : ∀ x ∈ ([45, 50] : List Nat), 45 ≤ x ∧ x ≤ 50 := by decide
    have hF : ∀ x ∈ ([90, 100] : List Nat), 90 ≤ x := by decide
    have hB : ∀ x ∈ (List.range u).map (scanUniversalProgress u), 15 ≤ x ∧ x ≤ 29 := by
      intro x hx
      obtain ⟨i, hi, hxi⟩ := List.mem_map.mp hx
      rw [← hxi]
      exact scanUniversalProgress_bounds (List.mem_range.mp hi)
    have hC : ∀ x ∈ (List.range c).flatMap
        (fun ci => List.replicate (compScanners ci) (scanComponentProgress c ci)),
        30 ≤ x ∧ x ≤ 44 := by
      intro x hx
      obtain ⟨ci, hci, hxin⟩ := List.mem_flatMap.mp hx
      rw [List.eq_of_mem_replicate hxin]
      exact scanComponentProgress_bounds (List.mem_range.mp hci)
    have hE : ∀ x ∈ (if total = 0 then [] else 50 :: analyzingEmitted total),
        50 ≤ x ∧ x ≤ 85 := by
      intro x hx
      by_cases htot : total = 0
      · rw [if_pos htot] at hx; cases hx
      · rw [if_neg htot] at hx
        rcases List.mem_cons.mp hx with hx | hx
        · omega
        · have := ((analyzingEmitted_facts total (by omega)).2.1 x hx)
          omega
    have hBpw : ((List.range u).map (scanUniversalProgress u)).Pairwise (· ≤ ·) :=
      (List.pairwise_lt_range u).map _
        (fun _ _ hij => scanUniversalProgress_mono (le_of_lt hij))
    have hCpw : ((List.range c).flatMap
        (fun ci => List.replicate (compScanners ci) (scanComponentProgress c ci))).Pairwise
          (· ≤ ·) := by
      refine List.pairwise_flatMap.mpr ⟨?_, ?_⟩
      · intro ci _
        exact List.pairwise_replicate.mpr (Or.inr le_rfl)
      · refine (List.pairwise_lt_range c).imp ?_
        intro a b hab x hx y hy
        rw [List.eq_of_mem_replicate hx, List.eq_of_mem_replicate hy]
        exact scanComponentProgress_mono (le_of_lt hab)
    have hEpw : (if total = 0 then [] else 50 :: analyzingEmitted total).Pairwise
        (· ≤ ·) := by
      by_cases htot : total = 0
      · rw [if_pos htot]; exact List.Pairwise.nil
      · rw [if_neg htot]
        have := List.chain'_iff_pairwise.mp
          (emitUpdates_chain total ((List.range total).map (· + 1)) 50)
        exact this.imp (fun h => le_of_lt h)
    have hEF : ((if total = 0 then [] else 50 :: analyzingEmitted total)
        ++ [90, 100]).Pairwise (· ≤ ·) := by
      rw [List.pairwise_append]
      refine ⟨hEpw, by decide, ?_⟩
      intro a ha b hb
      have := (hE a ha).2
      have := hF b hb
      omega
    have hEFlow : ∀ b ∈ ((if total = 0 then [] else 50 :: analyzingEmitted total)
        ++ [90, 100]), 50 ≤ b := by
      intro b hb
      rcases List.mem_append.mp hb with hb | hb
      · exact (hE b hb).1
      · have := hF b hb
        omega
    have hDEF : (([45, 50] : List Nat)
        ++ ((if total = 0 then [] else 50 :: analyzingEmitted total)
            ++ [90, 100])).Pairwise (· ≤ ·) := by
      rw [List.pairwise_append]
      refine ⟨by decide, hEF, ?_⟩
      intro a ha b hb
      have := (hD a ha).2
      have := hEFlow b hb
      omega
    have hDEFlow : ∀ b ∈ (([45, 50] : List Nat)
        ++ ((if total = 0 then [] else 50 :: analyzingEmitted total)
            ++ [90, 100])), 45 ≤ b := by
      intro b hb
      rcases List.mem_append.mp hb with hb | hb
      · exact (hD b hb).1
      · have := hEFlow b hb
        omega
    have hCDEF : ((List.range c).flatMap
        (fun ci => List.replicate (compScanners ci) (scanComponentProgress c ci))
        ++ (([45, 50] : List Nat)
            ++ ((if total = 0 then [] else 50 :: analyzingEmitted total)
                ++ [90, 100]))).Pairwise (· ≤ ·) := by
      rw [List.pairwise_append]
      refine ⟨hCpw, hDEF, ?_⟩
      intro a ha b hb
      have := (hC a ha).2
      have := hDEFlow b hb
      omega
    have hCDEFlow : ∀ b ∈ ((List.range c).flatMap
        (fun ci => List.replicate (compScanners ci) (scanComponentProgress c ci))
        ++ (([45, 50] : List Nat)
            ++ ((if total = 0 then [] else 50 :: analyzingEmitted total)
                ++ [90, 100]))), 30 ≤ b := by
      intro b hb
      rcases List.mem_append.mp hb with hb | hb
      · exact (hC b hb).1
      · have := hDEFlow b hb
        omega
    have hBCDEF : ((List.range u).map (scanUniversalProgress u)
        ++ ((List.range c).flatMap
            (fun ci => List.replicate (compScanners ci) (scanComponentProgress c ci))
          ++ (([45, 50] : List Nat)
              ++ ((if total = 0 then [] else 50 :: analyzingEmitted total)
                  ++ [90, 100])))).Pairwise (· ≤ ·) := by
      rw [List.pairwise_append]
      refine ⟨hBpw, hCDEF, ?_⟩
      intro a ha b hb
      have := (hB a ha).2
      have := hCDEFlow b hb
      omega
    have hBCDEFlow : ∀ b ∈ ((List.range u).map (scanUniversalProgress u)
        ++ ((List.range c).flatMap
            (fun ci => List.replicate (compScanners ci) (scanComponentProgress c ci))
          ++ (([45, 50] : List Nat)
              ++ ((if total = 0 then [] else 50 :: analyzingEmitted total)
                  ++ [90, 100])))), 15 ≤ b := by
      intro b hb
      rcases List.mem_append.mp hb with hb | hb
      · exact (hB b hb).1
      · have := hCDEFlow b hb
        omega
    rw [pipelineWrites]
    simp only [List.append_assoc]
    rw [List.pairwise_append]
    refine ⟨by decide, hBCDEF, ?_⟩
    intro a ha b hb
    have := hA a ha
    have := hBCDEFlow b hb
    omega
  · exact (emitUpdates_chain total ((List.range total).map (· + 1)) 50).tail

/-- Claim C8, counterexample: in the 3-files / 2-credentials scenario
(2 workers) the emitted analyzing-stage progress values are
`[61, 73, 85]` — the stage tops out at `50 + int((3/3)*35) = 85` after
the workers join, and the value 90 is never reported during the
analyzing stage (90 is first written by the `generating_report`
stage). -/
theorem analyzing_top_not_90 :
    workerCount 2 3 = 2
    ∧ analyzingEmitted 3 = [61, 73, 85]
    ∧ (analyzingEmitted 3).getLast? = some 85
    ∧ 90 ∉ analyzingEmitted 3 := by decide

/-- Claim C8, amended: when all eligible files of a job are analyzed,
the analyzing-stage progress reaches 85, the top of the 50–85 band the
code actually uses for that stage (not 90), and never exceeds it. -/
theorem analyzing_top_is_85 (total : Nat) (h : 1 ≤ total) :
    (analyzingEmitted total).getLast? = some 85
    ∧ ∀ x ∈ analyzingEmitted total, x ≤ 85 :=
  ⟨(analyzingEmitted_facts total h).2.2,
   fun x hx => ((analyzingEmitted_facts total h).2.1 x hx).2⟩

/-- Witness for `analyzing_top_is_85` at three files. -/
theorem analyzing_top_is_85_witness :
    1 ≤ 3 ∧ ((analyzingEmitted 3).getLast? = some 85
      ∧ ∀ x ∈ analyzingEmitted 3, x ≤ 85) :=
  ⟨by decide, analyzing_top_is_85 3 (by decide)⟩

/- ### The recursion-limit behaviour of `json.loads` -/

/-- How `json.loads` fails: a `JSONDecodeError` (the only exception
`parse_llm_json_response` catches) or a `RecursionError`, raised when
container nesting exhausts the interpreter's recursion budget. -/
inductive JLoadsErr where
  | decode : JLoadsErr
  | recursion : JLoadsErr
deriving DecidableEq, Repr

/-- The interpreter's recursion budget for the scanner:
`sys.getrecursionlimit()` defaults to 1000 and nothing in the worker
changes it.  The stack depth already in use when `json.loads` is entered
only lowers the budget further, so any input this model rejects the
interpreter rejects too. -/
def pyRecursionLimit : Nat := 1000

mutual

/-- The scanner of `jsonLoads`, refined with the recursion budget:
entering a container (`{` or `[`) consumes one level and raises a
`RecursionError` when none is left (CPython enters a recursive call per
container); every other failure is a `JSONDecodeError`.  Apart from the
depth accounting this is `parseJVal`. -/
def parseJValD : Nat → Nat → List Char → Except JLoadsErr (JVal × List Char)
  | 0, _, _ => Except.error JLoadsErr.decode
  | fuel + 1, depth, l =>
      match l.dropWhile isJsonWs with
      | [] => Except.error JLoadsErr.decode
      | c :: rest =>
          if c == '"' then
            match parseJStr (fuel + 1) rest with
            | some (s, r) => Except.ok (JVal.str (String.mk s), r)
            | none => Except.error JLoadsErr.decode
          else if c == obrace then
            if depth = 0 then Except.error JLoadsErr.recursion
            else
              match rest.dropWhile isJsonWs with
              | d :: rest2 =>
                  if d == cbrace then Except.ok (JVal.obj [], rest2)
                  else parseJMembersD fuel (depth - 1) (rest.dropWhile isJsonWs) []
              | [] => Except.error JLoadsErr.decode
          else if c == '[' then
            if depth = 0 then Except.error JLoadsErr.recursion
            else
              match rest.dropWhile isJsonWs with
              | d :: rest2 =>
                  if d == ']' then Except.ok (JVal.arr [], rest2)
                  else parseJItemsD fuel (depth - 1) (rest.dropWhile isJsonWs) []
              | [] => Except.error JLoadsErr.decode
          else if ['t', 'r', 'u', 'e'].isPrefixOf (c :: rest) then
            Except.ok (JVal.bool true, (c :: rest).drop 4)
          else if ['f', 'a', 'l', 's', 'e'].isPrefixOf (c :: rest) then
            Except.ok (JVal.bool false, (c :: rest).drop 5)
          else if ['n', 'u', 'l', 'l'].isPrefixOf (c :: rest) then
            Except.ok (JVal.null, (c :: rest).drop 4)
          else if ['N', 'a', 'N'].isPrefixOf (c :: rest) then
            Except.ok (JVal.num "NaN", (c :: rest).drop 3)
          else if ['I', 'n', 'f', 'i', 'n', 'i', 't', 'y'].isPrefixOf (c :: rest) then
            Except.ok (JVal.num "Infinity", (c :: rest).drop 8)
          else if ['-', 'I', 'n', 'f', 'i', 'n', 'i', 't', 'y'].isPrefixOf (c :: rest) then
            Except.ok (JVal.num "-Infinity", (c :: rest).drop 9)
          else
            match parseJNum (c :: rest) with
            | some (s, r) => Except.ok (JVal.num (String.mk s), r)
            | none => Except.error JLoadsErr.decode

/-- Members of a JSON object under the recursion budget. -/
def parseJMembersD : Nat → Nat → List Char → List (String × JVal) →
    Except JLoadsErr (JVal × List Char)
  | 0, _, _, _ => Except.error JLoadsErr.decode
  | fuel + 1, depth, l, acc =>
      match l with
      | '"' :: rest =>
          match parseJStr (fuel + 1) rest with
          | none => Except.error JLoadsErr.decode
          | some (key, r1) =>
              match r1.dropWhile isJsonWs with
              | ':' :: r2 =>
                  match parseJValD fuel depth r2 with
                  | Except.error e => Except.error e
                  | Except.ok (v, r3) =>
                      match r3.dropWhile isJsonWs with
                      | c :: r4 =>
                          if c == ',' then
                            parseJMembersD fuel depth (r4.dropWhile isJsonWs)
                              (objInsert acc (String.mk key) v)
                          else if c == cbrace then
                            Except.ok (JVal.obj (objInsert acc (String.mk key) v), r4)
                          else Except.error JLoadsErr.decode
                      | [] => Except.error JLoadsErr.decode
              | _ => Except.error JLoadsErr.decode
      | _ => Except.error JLoadsErr.decode

/-- Items of a JSON array under the recursion budget. -/
def parseJItemsD : Nat → Nat → List Char → List JVal →
    Except JLoadsErr (JVal × List Char)
  | 0, _, _, _ => Except.error JLoadsErr.decode
  | fuel + 1, depth, l, acc =>
      match parseJValD fuel depth l with
      | Except.error e => Except.error e
      | Except.ok (v, r1) =>
          match r1.dropWhile isJsonWs with
          | c :: r2 =>
              if c == ',' then parseJItemsD fuel depth r2 (acc ++ [v])
              else if c == ']' then Except.ok (JVal.arr (acc ++ [v]), r2)
              else Except.error JLoadsErr.decode
          | [] => Except.error JLoadsErr.decode

end

/-- `json.loads` with the interpreter's recursion budget made explicit:
`jsonLoads` above models only the value-or-`JSONDecodeError` outcomes,
while this refinement also separates the `RecursionError` outcome that
`parse_llm_json_response`'s `except json.JSONDecodeError` handler does
not catch. -/
def jsonLoadsD (s : String) : Except JLoadsErr JVal :=
  match parseJValD (2 * s.toList.length + 8) pyRecursionLimit s.toList with
  | Except.ok (v, rest) =>
      if (rest.dropWhile isJsonWs).isEmpty then Except.ok v
      else Except.error JLoadsErr.decode
  | Except.error e => Except.error e

/-- `parse_llm_json_response` over the refined `json.loads`: the ladder
is unchanged, but a `RecursionError` from either parse attempt escapes
the `except json.JSONDecodeError` handler at `ollama_client.py:93`, so
the whole call raises (`Except.error ()`). -/
def parse_llm_json_responseD (text : String) :
    Except Unit (Option JVal × String) :=
  let payload := extract_json_payload text
  if payload = "" then Except.ok (none, "")
  else
    match jsonLoadsD payload with
    | Except.ok (JVal.obj kvs) => Except.ok (some (JVal.obj kvs), "direct")
    | Except.error JLoadsErr.recursion => Except.error ()
    | _ =>
        match jsonLoadsD (sanitize_json_text payload) with
        | Except.ok (JVal.obj kvs) => Except.ok (some (JVal.obj kvs), "sanitized")
        | Except.error JLoadsErr.recursion => Except.error ()
        | _ => Except.ok (none, "")

/-- A value whose container nesting exceeds the budget forces the
`RecursionError` outcome, whatever follows the open brackets. -/
theorem parseJValD_deep_recursion :
    ∀ (d : Nat) (fuel : Nat) (tail : List Char), 2 * d + 1 ≤ fuel →
      parseJValD fuel d ('[' :: (List.replicate d '[' ++ tail))
        = Except.error JLoadsErr.recursion := by
  intro d
  induction d with
  | zero =>
      intro fuel tail hf
      match fuel, hf with
      | f + 1, _ =>
          rw [parseJValD]
          rw [List.dropWhile_cons_of_neg (by decide)]
          dsimp only
          rw [if_neg (by decide), if_neg (by decide), if_pos (by decide), if_pos rfl]
  | succ d ih =>
      intro fuel tail hf
      match fuel, hf with
      | f + 1, hf =>
          rw [parseJValD]
          rw [List.dropWhile_cons_of_neg (by decide)]
          dsimp only
          rw [if_neg (by decide), if_neg (by decide), if_pos (by decide),
            if_neg (by omega)]
          rw [List.replicate_succ, List.cons_append]
          rw [List.dropWhile_cons_of_neg (by decide)]
          dsimp only
          rw [if_neg (by decide)]
          rw [Nat.add_sub_cancel]
          match f, hf with
          | f' + 1, hf =>
              rw [parseJItemsD]
              rw [ih f' tail (by omega)]

/-- `'['*2000 + ']'*2000`: a payload nested beyond the recursion budget. -/
def deepArrayList : List Char :=
  List.replicate 2000 '[' ++ List.replicate 2000 ']'

/-- The same payload as the response string handed to the parser. -/
def deepArrayInput : String := String.mk deepArrayList

theorem findChar_eq_none (ch : Char) :
    ∀ l : List Char, (∀ c ∈ l, ¬ c = ch) → findChar ch l = none := by
  intro l
  induction l with
  | nil => intro _; rfl
  | cons c rest ih =>
      intro h
      have hc : ¬ ((c == ch) = true) := by simpa using h c (by simp)
      rw [findChar, if_neg hc, ih (fun x hx => h x (by simp [hx]))]
      rfl

theorem fenceSearch_eq_none :
    ∀ l : List Char, (∀ c ∈ l, ¬ c = btick) → fenceSearch l = none := by
  intro l
  induction l with
  | nil => intro _; rfl
  | cons c rest ih =>
      intro h
      have hbc : (btick == c) = false := by
        simp only [beq_eq_false_iff_ne]
        exact fun e => h c (by simp) e.symm
      have hpre : ¬ (fenceDelim.isPrefixOf (c :: rest) = true) := by
        simp [fenceDelim, List.isPrefixOf, hbc]
      rw [fenceSearch, if_neg hpre]
      exact ih (fun x hx => h x (by simp [hx]))

theorem pyStrip_eq_self {l : List Char} (h1 : l.dropWhile isPySpace = l)
    (h2 : l.reverse.dropWhile isPySpace = l.reverse) : pyStrip l = l := by
  rw [pyStrip, h1, h2, List.reverse_reverse]

theorem deepArrayList_shape :
    deepArrayList = '[' :: (List.replicate 1999 '[' ++ List.replicate 2000 ']') := by
  rw [deepArrayList]
  nth_rewrite 1 [show (2000 : Nat) = 1999 + 1 from rfl]
  rw [List.replicate_succ, List.cons_append]

theorem deepArrayList_rev :
    deepArrayList.reverse = ']' :: (List.replicate 1999 ']' ++ List.replicate 2000 '[') := by
  rw [deepArrayList, List.reverse_append, List.reverse_replicate, List.reverse_replicate]
  nth_rewrite 1 [show (2000 : Nat) = 1999 + 1 from rfl]
  rw [List.replicate_succ, List.cons_append]

theorem deepArrayList_chars : ∀ c ∈ deepArrayList, c = '[' ∨ c = ']' := by
  intro c hc
  rw [deepArrayList] at hc
  rcases List.mem_append.mp hc with hc | hc
  · exact Or.inl (List.eq_of_mem_replicate hc)
  · exact Or.inr (List.eq_of_mem_replicate hc)

theorem deepArrayList_strip : pyStrip deepArrayList = deepArrayList := by
  refine pyStrip_eq_self ?_ ?_
  · rw [deepArrayList_shape, List.dropWhile_cons_of_neg (by decide)]
  · rw [deepArrayList_rev, List.dropWhile_cons_of_neg (by decide)]

theorem deepArrayList_len : deepArrayList.length = 4000 := by
  rw [deepArrayList, List.length_append, List.length_replicate, List.length_replicate]

/-- `_extract_json_payload` passes the deeply nested payload through
unchanged: no fence, no brace, and the full `[...]` span is the whole
(already stripped) text. -/
theorem extract_deepArray :
    extract_json_payload deepArrayInput = deepArrayInput := by
  have hL : extractJsonPayloadL deepArrayList = deepArrayList := by
    rw [extractJsonPayloadL]
    rw [if_neg (by
      rw [deepArrayList_shape]
      simp only [List.isEmpty_cons]
      exact Bool.false_ne_true)]
    rw [fenceSearch_eq_none deepArrayList
      (fun c hc => by rcases deepArrayList_chars c hc with h | h <;> (subst h; decide))]
    dsimp only
    rw [deepArrayList_strip]
    rw [findChar_eq_none obrace deepArrayList
      (fun c hc => by rcases deepArrayList_chars c hc with h | h <;> (subst h; decide))]
    rw [rfindChar, findChar_eq_none cbrace deepArrayList.reverse
      (fun c hc => by
        rcases deepArrayList_chars c (List.mem_reverse.mp hc) with h | h <;>
          (subst h; decide))]
    dsimp only
    rw [show findChar '[' deepArrayList = some 0 by
      rw [deepArrayList_shape, findChar, if_pos (by decide)]]
    rw [show rfindChar ']' deepArrayList = some 3999 by
      rw [rfindChar, deepArrayList_rev, findChar, if_pos (by decide)]
      rw [show Option.map (fun j => deepArrayList.length - 1 - j) (some 0)
          = some (deepArrayList.length - 1 - 0) from rfl]
      rw [deepArrayList_len]]
    dsimp only
    rw [if_pos (by norm_num)]
    rw [List.drop_zero]
    rw [show (3999 + 1 - 0 : Nat) = 4000 from rfl]
    rw [List.take_of_length_le (by rw [deepArrayList_len])]
    exact deepArrayList_strip
  show String.mk (extractJsonPayloadL deepArrayList) = deepArrayInput
  rw [hL]
  rfl

/-- On the deeply nested payload, `json.loads` hits the recursion limit
(2000 nested arrays against a budget of 1000). -/
theorem jsonLoadsD_deepArray :
    jsonLoadsD deepArrayInput = Except.error JLoadsErr.recursion := by
  have hshape2 : deepArrayList
      = '[' :: (List.replicate 1000 '['
          ++ (List.replicate 999 '[' ++ List.replicate 2000 ']')) := by
    rw [deepArrayList]
    nth_rewrite 1 [show (2000 : Nat) = 1999 + 1 from rfl]
    rw [List.replicate_succ]
    rw [show (1999 : Nat) = 1000 + 999 from rfl, List.replicate_add]
    rw [List.cons_append, List.append_assoc]
  have hstep := parseJValD_deep_recursion 1000 (2 * 4000 + 8)
    (List.replicate 999 '[' ++ List.replicate 2000 ']') (by norm_num)
  rw [jsonLoadsD]
  rw [show deepArrayInput.toList = deepArrayList from rfl]
  rw [deepArrayList_len]
  rw [show pyRecursionLimit = 1000 from rfl]
  rw [hshape2]
  rw [hstep]

theorem parse_llm_json_responseD_deepArray :
    parse_llm_json_responseD deepArrayInput = Except.error () := by
  have hne : ¬ (extract_json_payload deepArrayInput = "") := by
    rw [extract_deepArray]
    intro e
    have h' : deepArrayInput.toList = ("" : String).toList := by rw [e]
    rw [show deepArrayInput.toList = deepArrayList from rfl, deepArrayList_shape] at h'
    exact List.cons_ne_nil _ _ h'
  rw [parse_llm_json_responseD]
  rw [if_neg hne]
  rw [extract_deepArray, jsonLoadsD_deepArray]

/-- Claim C10, counterexample: `parse_llm_json_response` is not total.
On the response `'['*2000 + ']'*2000` the payload extractor passes the
whole text through (it recognizes the `[...]` span), `json.loads` raises
`RecursionError` — not `JSONDecodeError` — once nesting exhausts the
interpreter's recursion budget, and the sole
`except json.JSONDecodeError` handler does not catch it, so the call
raises instead of returning `(None, "")`. -/
theorem parse_ladder_raises_on_deep_nesting :
    extract_json_payload deepArrayInput = deepArrayInput
    ∧ jsonLoadsD deepArrayInput = Except.error JLoadsErr.recursion
    ∧ parse_llm_json_responseD deepArrayInput = Except.error () :=
  ⟨extract_deepArray, jsonLoadsD_deepArray, parse_llm_json_responseD_deepArray⟩

/-- Claim C10, amended: `parse_llm_json_response` returns either a JSON
object with method `"direct"` or `"sanitized"`, or `(None, "")`, or it
raises; it raises exactly when one of its two `json.loads` attempts hits
the interpreter recursion limit (a `RecursionError` the
`except json.JSONDecodeError` handler does not catch).  A payload that
parses to a top-level JSON array — here `[1,2]` — is still rejected with
`(None, "")`. -/
theorem parse_ladder_shape_or_recursion :
    (∀ s : String,
      parse_llm_json_responseD s = Except.error ()
      ∨ (∃ kvs, parse_llm_json_responseD s = Except.ok (some (JVal.obj kvs), "direct")
          ∨ parse_llm_json_responseD s = Except.ok (some (JVal.obj kvs), "sanitized"))
      ∨ parse_llm_json_responseD s = Except.ok (none, ""))
    ∧ (∀ s : String, parse_llm_json_responseD s = Except.error () →
        jsonLoadsD (extract_json_payload s) = Except.error JLoadsErr.recursion
        ∨ jsonLoadsD (sanitize_json_text (extract_json_payload s))
            = Except.error JLoadsErr.recursion)
    ∧ parse_llm_json_responseD "[1,2]" = Except.ok (none, "") := by
  refine ⟨?_, ?_, rfl⟩
  · intro s
    unfold parse_llm_json_responseD
    dsimp only
    split
    · right; right; rfl
    · split
      · next kvs _ => right; left; exact ⟨kvs, Or.inl rfl⟩
      · left; rfl
      · split
        · next kvs _ => right; left; exact ⟨kvs, Or.inr rfl⟩
        · left; rfl
        · right; right; rfl
  · intro s h
    unfold parse_llm_json_responseD at h
    dsimp only at h
    split at h
    · cases h
    · split at h
      · cases h
      · next heq => exact Or.inl heq
      · split at h
        · cases h
        · next heq => exact Or.inr heq
        · cases h
